import Mathlib

/-!
Verification of the TedTalks repository against its specification.

Part 1 embeds the frontend service code of
`frontend/src/services/api.service.ts` (the `ApiService` class).
JavaScript strings are modelled as their sequence of UTF-16 code units
(`List Nat`); JavaScript numbers that are only ever integers are modelled
as `Int`/`Nat`, and the floating-point mood averages as `ℚ`.

Part 2 models the conversation-analysis worker.  The repository documents
`backend/worker.py` (README, section "backend/worker.py — analysis
pipeline") but the file itself is not present in the sources, so the four
pipeline stages, the conversation store operations and the orchestrator
state machine are modelled from the specification text (sections 3-7 of
the spec).  Mood/keyword scores are modelled as natural-valued scores,
since none of the properties under test depend on the real-valued range.
-/

namespace TedTalks

/-- A JavaScript string, as its sequence of UTF-16 code units. -/
abbrev JSString := List Nat

/-- ASCII fragment of JavaScript `String.prototype.toLowerCase` on one
code unit. -/
def lowerCode (c : Nat) : Nat := if 65 ≤ c ∧ c ≤ 90 then c + 32 else c

/-- JavaScript `toLowerCase` (ASCII fragment). -/
def toLowerCase (s : JSString) : JSString := s.map lowerCode

/-- White-space code units removed by JavaScript `String.prototype.trim`
(ASCII fragment: space, tab, LF, VT, FF, CR). -/
def isWs (c : Nat) : Bool := c = 32 || c = 9 || c = 10 || c = 11 || c = 12 || c = 13

/-- JavaScript `trim`: drop leading and trailing white space. -/
def trim (s : JSString) : JSString :=
  ((s.dropWhile isWs).reverse.dropWhile isWs).reverse

/-- Decimal representation of a natural number as a JS string. -/
def natToJS (n : Nat) : JSString := (Nat.toDigits 10 n).map Char.toNat

/-- Truncation of a signed 64-bit float to a signed 32-bit integer as done
by the JavaScript `| 0` operation (the intermediate values in the hash all
fit a float exactly). -/
def toInt32 (n : Int) : Int := (n + 2 ^ 31) % 2 ^ 32 - 2 ^ 31

/-- JavaScript `Math.abs` on an integral number. -/
def mathAbs (x : Int) : Int := if x < 0 then -x else x

namespace ApiService

/-- Embeds the `ApiResponse<T>` shape produced by `ApiService.ok` /
`ApiService.fail` (api.service.ts lines 96-102): `success`, optional
`data`, optional `error`, and the `nowIso()` timestamp. -/
structure ApiResponse (α : Type) where
  success : Bool
  data : Option α
  error : Option JSString
  timestamp : JSString

/-- Embeds `private ok<T>(data: T)` (line 96): success response carrying
`data`, stamped with the current time `now`. -/
def ok {α : Type} (now : JSString) (d : α) : ApiResponse α :=
  ⟨true, some d, none, now⟩

/-- Embeds `private fail<T>(error: string)` (line 100): failure response
carrying `error`, stamped with the current time `now`. -/
def fail {α : Type} (now : JSString) (e : JSString) : ApiResponse α :=
  ⟨false, none, some e, now⟩

/-- Embeds the `ConversationItem` value built by `toConversationItem`
(api.service.ts lines 278-308). -/
structure ConversationItem where
  id : Int
  timestamp : JSString
  timeFormatted : JSString
  type : JSString
  content : JSString
  mood : JSString
  flagged : Bool
deriving DecidableEq

/-- Embeds the `ConversationDay` shape returned by `groupItemsByDay`:
a `date` key and the items of that day. -/
structure ConversationDay where
  date : JSString
  items : List ConversationItem
deriving DecidableEq

/-- The grouping key of an item: `item.timestamp.slice(0, 10)`
(api.service.ts line 314). -/
def dayKey (it : ConversationItem) : JSString := it.timestamp.take 10

/-- One step of filling the `Map<string, ConversationItem[]>` of
`groupItemsByDay` (lines 313-317): `map.get(key)!.push(item)` appends to
the existing bucket, `map.set(key, [])` appends a new key at the end
(JavaScript Map preserves insertion order). -/
def insertByDay (m : List (JSString × List ConversationItem)) (it : ConversationItem) :
    List (JSString × List ConversationItem) :=
  match m with
  | [] => [(dayKey it, [it])]
  | (k, arr) :: rest =>
      if k = dayKey it then (k, arr ++ [it]) :: rest
      else (k, arr) :: insertByDay rest it

/-- The whole `for (const item of items)` grouping loop of
`groupItemsByDay`. -/
def buildDayMap (items : List ConversationItem) : List (JSString × List ConversationItem) :=
  items.foldl insertByDay []

/-- The item comparator of `groupItemsByDay` line 320,
`(a, b) => (a.timestamp < b.timestamp ? 1 : -1)`: items are ordered by
descending timestamp.  The JavaScript comparator never returns 0, so the
order among equal timestamps is unspecified; the embedding uses a stable
sort. -/
def itemDesc (a b : ConversationItem) : Prop := b.timestamp ≤ a.timestamp

instance : DecidableRel itemDesc := fun a b =>
  inferInstanceAs (Decidable (b.timestamp ≤ a.timestamp))

instance : IsTotal ConversationItem itemDesc where
  total a b := le_total b.timestamp a.timestamp

instance : IsTrans ConversationItem itemDesc where
  trans _ _ _ hab hbc := le_trans hbc hab

/-- The day comparator of `groupItemsByDay` line 324,
`(a, b) => (a[0] < b[0] ? 1 : -1)`: entries ordered by descending date
key (keys are pairwise distinct, so the comparator is exact). -/
def entryDesc (a b : JSString × List ConversationItem) : Prop := b.1 ≤ a.1

instance : DecidableRel entryDesc := fun a b =>
  inferInstanceAs (Decidable (b.1 ≤ a.1))

instance : IsTotal (JSString × List ConversationItem) entryDesc where
  total a b := le_total b.1 a.1

instance : IsTrans (JSString × List ConversationItem) entryDesc where
  trans _ _ _ hab hbc := le_trans hbc hab

/-- The in-place `arr.sort(...)` pass of `groupItemsByDay` (lines
319-321): each bucket sorted by descending timestamp. -/
def sortedBuckets (items : List ConversationItem) : List (JSString × List ConversationItem) :=
  (buildDayMap items).map (fun e => (e.1, List.insertionSort itemDesc e.2))

/-- Embeds `private groupItemsByDay(items)` (api.service.ts lines
310-326): group by the first 10 characters of the timestamp, sort each
bucket by descending timestamp, sort the days by descending date key. -/
def groupItemsByDay (items : List ConversationItem) : List ConversationDay :=
  (List.insertionSort entryDesc (sortedBuckets items)).map (fun e => ⟨e.1, e.2⟩)

/-- Well-formedness of the grouping map: pairwise distinct keys, and
every bucket holds exactly the items of its key. -/
def mapInv (m : List (JSString × List ConversationItem)) : Prop :=
  (m.map Prod.fst).Nodup ∧ ∀ e ∈ m, ∀ it ∈ e.2, dayKey it = e.1

/-- Embeds one document of the `mood_events` collection as read by
`getMoodTrends` (lines 374-377): the code tolerates a missing/ill-typed
`timestamp` (defaults to `nowIso()`) and `mood` (defaults to 0). -/
structure MoodEventDoc where
  timestamp : Option JSString
  mood : Option ℚ

/-- Embeds the `MoodDataPoint` shape produced by `getMoodTrends`. -/
structure MoodDataPoint where
  date : JSString
  day : JSString
  mood : ℚ

/-- One step of the `agg` map fill of `getMoodTrends` (lines 373-383):
`cur.sum += mood; cur.count += 1` on the existing entry, or a fresh entry
appended at the end. -/
def aggInsert (m : List (JSString × (ℚ × Nat))) (key : JSString) (mood : ℚ) :
    List (JSString × (ℚ × Nat)) :=
  match m with
  | [] => [(key, (mood, 1))]
  | (k, sc) :: rest =>
      if k = key then (k, (sc.1 + mood, sc.2 + 1)) :: rest
      else (k, sc) :: aggInsert rest key mood

/-- The ascending date comparator of `getMoodTrends` line 386,
`(a, b) => (a[0] > b[0] ? 1 : -1)`. -/
def aggAsc (a b : JSString × (ℚ × Nat)) : Prop := a.1 ≤ b.1

instance : DecidableRel aggAsc := fun a b =>
  inferInstanceAs (Decidable (a.1 ≤ b.1))

instance : IsTotal (JSString × (ℚ × Nat)) aggAsc where
  total a b := le_total a.1 b.1

instance : IsTrans (JSString × (ℚ × Nat)) aggAsc where
  trans _ _ _ hab hbc := le_trans hab hbc

/-- Embeds `async getMoodTrends(days = 7)` (api.service.ts lines
360-400).  The awaited store query (which may throw) is passed in as
`q : Except JSString (List MoodEventDoc)`; `fmtDay` stands for the
locale-dependent `formatDayShort`, and `now` for `nowIso()`.  The `catch`
block (line 397-399) returns `this.ok([])` - a success response with an
empty array - unlike every other method of the class, whose catch blocks
return `this.fail(...)`. -/
def getMoodTrends (fmtDay : JSString → JSString) (now : JSString)
    (q : Except JSString (List MoodEventDoc)) : ApiResponse (List MoodDataPoint) :=
  match q with
  | Except.error _ => ok now []
  | Except.ok docs =>
      let agg := docs.foldl
        (fun m d =>
          let iso := d.timestamp.getD now
          aggInsert m (iso.take 10) (d.mood.getD 0)) []
      let sorted := List.insertionSort aggAsc agg
      let points := sorted.map (fun e =>
        MoodDataPoint.mk e.1 (fmtDay e.1)
          (if e.2.2 ≠ 0 then e.2.1 / (e.2.2 : ℚ) else 0))
      ok now points

/-- Embeds `private stableIdFromString(s)` (api.service.ts lines
453-459): the classic 31-based rolling hash truncated to int32 at each
step by `| 0`, then `Math.abs`.  The input is the code-unit sequence of
the string (`charCodeAt`). -/
def stableIdFromString (s : JSString) : Int :=
  mathAbs (s.foldl (fun hash c => toInt32 (hash * 31 + (c : Int))) 0)

/-- The code units of the literal prefix `user-`. -/
def userTag : JSString := [117, 115, 101, 114, 45]

/-- The decimal string of `stableIdFromString`, as interpolated by
line 141.  `stableIdFromString` is non-negative, so its decimal form has
no sign. -/
def stableIdJS (s : JSString) : JSString := natToJS (stableIdFromString s).natAbs

/-- The email normalisation of `login` (line 140):
`credentials.email.toLowerCase().trim()`. -/
def normalizeEmail (email : JSString) : JSString := trim (toLowerCase email)

/-- Embeds the `userId` derivation of `login` (api.service.ts line 141):
a non-empty normalised email gives the stable hash-derived id, an empty
one falls back to the time-dependent `user-` ++ `Date.now()` value
(`nowMs`). -/
def loginUserId (email : JSString) (nowMs : Nat) : JSString :=
  let e := normalizeEmail email
  if e ≠ [] then userTag ++ stableIdJS e
  else userTag ++ natToJS nowMs

end ApiService

namespace Worker

/-- Modelled from the spec: `backend/worker.py` is described in the
README but absent from the sources.  Speaker of one utterance
(spec section 3, `speaker: child|assistant`). -/
inductive Speaker where
  | child
  | assistant
deriving DecidableEq

/-- Modelled from the spec: one utterance of a `ConversationRecord`
(spec section 3). -/
structure Utterance where
  speaker : Speaker
  text : JSString
  timestamp : Nat
deriving DecidableEq

/-- Modelled from the spec: the fixed mood label set of the Mood
Classifier (spec section 4.3). -/
inductive MoodLabel where
  | happy
  | sad
  | anxious
  | angry
  | neutral
deriving DecidableEq

/-- Token characters after lowercasing: ASCII letters and digits.  Part
of the Text Normalizer model (spec section 4.1). -/
def isTokenCode (c : Nat) : Bool := (97 ≤ c && c ≤ 122) || (48 ≤ c && c ≤ 57)

/-- Modelled from the spec: tokenisation core of the Text Normalizer
(section 4.1) - split on non-token characters, dropping empty pieces
(this collapses white space and strips punctuation). -/
def tokenizeAux : List Nat → List Nat → List JSString
  | [], cur => if cur = [] then [] else [cur.reverse]
  | c :: cs, cur =>
      if isTokenCode c then tokenizeAux cs (c :: cur)
      else if cur = [] then tokenizeAux cs []
      else cur.reverse :: tokenizeAux cs []

/-- Modelled from the spec: the token stream of one utterance text
(lowercased, white-space collapsed, punctuation stripped). -/
def tokenize (s : JSString) : List JSString := tokenizeAux (toLowerCase s) []

/-- Modelled from the spec: the Text Normalizer (section 4.1) - a
parallel sequence of token streams, one per utterance, preserving count
and order. -/
def normalize (utts : List Utterance) : List (List JSString) :=
  utts.map (fun u => tokenize u.text)

/-- Modelled from the spec: per-utterance mood classification (section
4.3).  The pluggable scoring capability is the function argument
`scorer`; an utterance with an empty token stream gets label neutral with
score 0 deterministically instead of being scored. -/
def classifyUtterance (scorer : List JSString → MoodLabel × Nat)
    (tokens : List JSString) : MoodLabel × Nat :=
  if tokens = [] then (MoodLabel.neutral, 0) else scorer tokens

/-- Modelled from the spec: the per-utterance mood sequence, parallel to
the normalised utterances (section 4.3). -/
def moodByUtterance (scorer : List JSString → MoodLabel × Nat)
    (norm : List (List JSString)) : List (MoodLabel × Nat) :=
  norm.map (classifyUtterance scorer)

/-- The fixed enumeration of labels, used by the aggregation rule. -/
def allLabels : List MoodLabel :=
  [MoodLabel.happy, MoodLabel.sad, MoodLabel.anxious, MoodLabel.angry, MoodLabel.neutral]

/-- Total score mass a label received across the conversation. -/
def labelWeight (per : List (MoodLabel × Nat)) (lab : MoodLabel) : Nat :=
  (per.filter (fun p => p.1 = lab)).foldl (fun acc p => acc + p.2) 0

/-- Modelled from the spec: the conversation-level aggregate mood
(section 4.3) with the fixed, documented frequency-weighted rule: the
label with the greatest total score, ties resolved by the fixed order of
`allLabels`, neutral when no label dominates. -/
def aggregateMood (per : List (MoodLabel × Nat)) : MoodLabel :=
  allLabels.foldl
    (fun best lab => if labelWeight per best < labelWeight per lab then lab else best)
    MoodLabel.neutral

/-- Modelled from the spec: one ranked keyword of the Keyword Extractor
output (section 4.2): the normalised term, its score, and the position of
its first occurrence in the conversation token stream (the tie-breaker). -/
structure KwEntry where
  term : JSString
  score : Nat
  firstIdx : Nat
deriving DecidableEq

/-- The ranking order of the Keyword Extractor: descending score, ties
broken by first-occurrence order. -/
def kwLe (a b : KwEntry) : Prop :=
  b.score < a.score ∨ (a.score = b.score ∧ a.firstIdx ≤ b.firstIdx)

instance : DecidableRel kwLe := fun a b =>
  inferInstanceAs (Decidable (b.score < a.score ∨ (a.score = b.score ∧ a.firstIdx ≤ b.firstIdx)))

instance : IsTotal KwEntry kwLe where
  total a b := by
    rcases lt_trichotomy a.score b.score with h | h | h
    · exact Or.inr (Or.inl h)
    · rcases le_total a.firstIdx b.firstIdx with h2 | h2
      · exact Or.inl (Or.inr ⟨h, h2⟩)
      · exact Or.inr (Or.inr ⟨h.symm, h2⟩)
    · exact Or.inl (Or.inl h)

instance : IsTrans KwEntry kwLe where
  trans _ _ _ hab hbc := by
    rcases hab with h | ⟨h1, h2⟩ <;> rcases hbc with h' | ⟨h1', h2'⟩
    · exact Or.inl (h'.trans h)
    · exact Or.inl (h1' ▸ h)
    · exact Or.inl (h1 ▸ h')
    · exact Or.inr ⟨h1.trans h1', h2.trans h2'⟩

/-- The distinct terms of a token stream in first-occurrence order
(deduplication by normalised term, section 4.2). -/
def firstOccs : List JSString → List JSString
  | [] => []
  | t :: ts => t :: (firstOccs ts).filter (fun x => x ≠ t)

/-- Modelled from the spec: the Keyword Extractor (section 4.2) over the
concatenated normalised utterances - frequency-scored, deduplicated by
term, sorted descending by score with ties broken by first occurrence,
capped at `cap` entries. -/
def extractKeywords (cap : Nat) (norm : List (List JSString)) : List KwEntry :=
  let toks := norm.flatten
  let entries := (firstOccs toks).map (fun t => KwEntry.mk t (toks.count t) (toks.indexOf t))
  (List.insertionSort kwLe entries).take cap

/-- Modelled from the spec: flag kinds (spec section 3). -/
inductive FlagKind where
  | safety
  | behavioral
deriving DecidableEq

/-- Modelled from the spec: flag severities (spec section 3). -/
inductive Severity where
  | low
  | medium
  | high
  | critical
deriving DecidableEq

/-- Modelled from the spec: a produced flag (spec section 3). -/
structure Flag where
  kind : FlagKind
  reason : JSString
  excerpt : JSString
  utteranceIndex : Nat
  severity : Severity
deriving DecidableEq

/-- Modelled from the spec: a deterministic keyword rule of the Safety
Rule Engine (section 4.4, flag source 1), with its fixed declared
severity. -/
structure KeywordRule where
  term : JSString
  kind : FlagKind
  reason : JSString
  severity : Severity
deriving DecidableEq

/-- Modelled from the spec: a threshold rule of the Safety Rule Engine
(section 4.4, flag source 2): a mood label whose score must reach
`threshold` across `window` consecutive utterances. -/
structure ThresholdRule where
  label : MoodLabel
  threshold : Nat
  window : Nat
  reason : JSString
  severity : Severity
deriving DecidableEq

/-- Flags fired by one keyword rule: at most one flag per utterance, at
the utterance indices whose token stream contains the rule term
(exact match, case-insensitive via the normalised tokens). -/
def keywordRuleFlags (rule : KeywordRule) (norm : List (List JSString)) : List Flag :=
  (List.range norm.length).filterMap (fun i =>
    if rule.term ∈ norm.getD i [] then
      some (Flag.mk rule.kind rule.reason rule.term i rule.severity)
    else none)

/-- The sustained-window condition of a threshold rule at utterance `i`:
a window of `rule.window ≥ 1` consecutive utterances ending at `i`, all
carrying the rule label with at least the threshold score. -/
def windowHolds (rule : ThresholdRule) (moods : List (MoodLabel × Nat)) (i : Nat) : Bool :=
  decide (1 ≤ rule.window) && decide (rule.window ≤ i + 1) &&
  (List.range rule.window).all (fun k =>
    let p := moods.getD (i + 1 - rule.window + k) (MoodLabel.neutral, 0)
    decide (p.1 = rule.label) && decide (rule.threshold ≤ p.2))

/-- Flags fired by one threshold rule: at most one flag per utterance, at
the indices where the sustained-window condition holds. -/
def thresholdRuleFlags (rule : ThresholdRule) (moods : List (MoodLabel × Nat)) : List Flag :=
  (List.range moods.length).filterMap (fun i =>
    if windowHolds rule moods i then
      some (Flag.mk FlagKind.behavioral rule.reason [] i rule.severity)
    else none)

/-- Modelled from the spec: the Safety Rule Engine (section 4.4) - the
two flag sources applied in order, both able to fire independently on the
same utterance. -/
def safetyFlags (kwRules : List KeywordRule) (thRules : List ThresholdRule)
    (norm : List (List JSString)) (moods : List (MoodLabel × Nat)) : List Flag :=
  (kwRules.map (fun r => keywordRuleFlags r norm)).flatten ++
  (thRules.map (fun r => thresholdRuleFlags r moods)).flatten

/-- Modelled from the spec: the configuration surface consumed by the
worker (spec section 6): keyword cap, safety rules, thresholds, and the
pluggable scoring capability. -/
structure AnalysisConfig where
  keywordCap : Nat
  kwRules : List KeywordRule
  thRules : List ThresholdRule
  scorer : List JSString → MoodLabel × Nat

/-- Modelled from the spec: the `AnalysisResult` structure (spec section
3). -/
structure AnalysisResult where
  keywords : List KwEntry
  moodOverall : MoodLabel
  moodByUtterance : List (MoodLabel × Nat)
  flags : List Flag
  completedAt : Nat
deriving DecidableEq

/-- Modelled from the spec: the four-stage pipeline of `backend/worker.py`
(README "Processing steps", spec section 2): normalise, extract keywords,
classify mood, apply safety rules, assemble the result.  `now` is the
wall-clock time of this run, recorded only in `completedAt`. -/
def runPipeline (cfg : AnalysisConfig) (utts : List Utterance) (now : Nat) : AnalysisResult :=
  let norm := normalize utts
  let moods := moodByUtterance cfg.scorer norm
  { keywords := extractKeywords cfg.keywordCap norm
    moodOverall := aggregateMood moods
    moodByUtterance := moods
    flags := safetyFlags cfg.kwRules cfg.thRules norm moods
    completedAt := now }

/-- Modelled from the spec: the analysis status enum (spec section 3). -/
inductive AnalysisStatus where
  | pending
  | in_progress
  | done
  | failed
deriving DecidableEq

/-- Modelled from the spec: a `ConversationRecord` (spec section 3),
including the bookkeeping fields driven by the orchestrator. -/
structure ConversationRecord where
  id : Nat
  userId : Nat
  utterances : List Utterance
  analysisStatus : AnalysisStatus
  analysisVersion : Nat
  analysis : Option AnalysisResult
  lastAnalyzedVersion : Nat
  retryCount : Nat
deriving DecidableEq

/-- Modelled from the spec: the store operation
`commitAnalysis(id, version, analysisResult, newStatus)` (spec section
6): the atomic commit of analysis, status and lastAnalyzedVersion, which
fails without applying anything when the stored `analysisVersion` no
longer matches `version` (optimistic-concurrency guard). -/
def commitAnalysis (r : ConversationRecord) (version : Nat) (result : AnalysisResult)
    (newStatus : AnalysisStatus) : ConversationRecord × Bool :=
  if version = r.analysisVersion then
    ({ r with analysis := some result, analysisStatus := newStatus,
              lastAnalyzedVersion := version }, true)
  else (r, false)

/-- Modelled from the spec: a record freshly created by the ingestion
endpoint (spec section 3 lifecycle): status pending, analysis null. -/
def mkRecord (i u : Nat) (utts : List Utterance) : ConversationRecord :=
  ⟨i, u, utts, AnalysisStatus.pending, 1, none, 0, 0⟩

/-- Modelled from the spec: the orchestrator state machine on one
conversation (spec sections 4.5 and 3 lifecycle): claim
(pending→in_progress), successful atomic commit of a completed pipeline
run (in_progress→done), stage failure (in_progress→failed), re-enqueue
(failed→pending), and re-ingestion of an appended utterance (version
bump, reset to pending). -/
inductive Step (cfg : AnalysisConfig) : ConversationRecord → ConversationRecord → Prop where
  | claim (r : ConversationRecord) (h : r.analysisStatus = AnalysisStatus.pending) :
      Step cfg r { r with analysisStatus := AnalysisStatus.in_progress }
  | commit (r r' : ConversationRecord) (t : Nat)
      (h : r.analysisStatus = AnalysisStatus.in_progress)
      (hc : commitAnalysis r r.analysisVersion (runPipeline cfg r.utterances t)
              AnalysisStatus.done = (r', true)) :
      Step cfg r r'
  | fail_stage (r : ConversationRecord) (h : r.analysisStatus = AnalysisStatus.in_progress) :
      Step cfg r { r with analysisStatus := AnalysisStatus.failed,
                          retryCount := r.retryCount + 1 }
  | retry (r : ConversationRecord) (h : r.analysisStatus = AnalysisStatus.failed) :
      Step cfg r { r with analysisStatus := AnalysisStatus.pending }
  | reingest (r : ConversationRecord) (u : Utterance) :
      Step cfg r { r with utterances := r.utterances ++ [u],
                          analysisVersion := r.analysisVersion + 1,
                          analysisStatus := AnalysisStatus.pending }

/-- Reflexive-transitive closure of `Step`: the records reachable from a
given one. -/
inductive Reachable (cfg : AnalysisConfig) : ConversationRecord → ConversationRecord → Prop where
  | refl (r : ConversationRecord) : Reachable cfg r r
  | tail {a b c : ConversationRecord} (hr : Reachable cfg a b) (hs : Step cfg b c) :
      Reachable cfg a c

/-- Modelled from the spec: the atomic compare-and-set claim of a pending
conversation (spec section 5): write in_progress only if the status still
is pending, report success. -/
def claimCAS (s : AnalysisStatus) : AnalysisStatus × Bool :=
  if s = AnalysisStatus.pending then (AnalysisStatus.in_progress, true) else (s, false)

/-- Modelled from the spec: `n` racing claim attempts against the same
conversation.  The store serialises the atomic compare-and-set calls, so
any interleaving of concurrent workers is a sequence of `claimCAS` steps;
the second component counts the successful claims. -/
def runClaimAttempts : AnalysisStatus → Nat → AnalysisStatus × Nat
  | s, 0 => (s, 0)
  | s, n + 1 =>
      let fst := claimCAS s
      let rest := runClaimAttempts fst.1 n
      (rest.1, (if fst.2 then 1 else 0) + rest.2)

end Worker

/-! Concrete inputs used by the witness theorems. -/

namespace Witness

open Worker ApiService

/-- A concrete analysis configuration: keyword cap 10, one keyword rule
on the term `sad`, no threshold rules, a constant scorer. -/
def cfgW : AnalysisConfig :=
  ⟨10, [KeywordRule.mk [115, 97, 100] FlagKind.safety [114] Severity.critical], [],
   fun _ => (MoodLabel.neutral, 0)⟩

/-- A single-utterance conversation whose text is `Sad!`. -/
def uttsSad : List Utterance := [Utterance.mk Speaker.child [83, 97, 100, 33] 0]

/-- A single-utterance conversation whose text is white space and
punctuation only (` !`), normalising to an empty token stream. -/
def uttsBlank : List Utterance := [Utterance.mk Speaker.child [32, 33] 5]

/-- The flag the keyword rule of `cfgW` fires on `uttsSad`. -/
def flagSad : Worker.Flag :=
  Worker.Flag.mk FlagKind.safety [114] [115, 97, 100] 0 Severity.critical

/-- A stored record at analysisVersion 2, still pending. -/
def recV2 : ConversationRecord :=
  ⟨1, 2, [], AnalysisStatus.pending, 2, none, 0, 0⟩

/-- An arbitrary concrete analysis result. -/
def resW : AnalysisResult := ⟨[], MoodLabel.neutral, [], [], 0⟩

/-- The freshly created empty conversation, claimed by a worker. -/
def inProgW : ConversationRecord :=
  ⟨1, 2, [], AnalysisStatus.in_progress, 1, none, 0, 0⟩

/-- The same conversation after the successful atomic commit. -/
def doneW : ConversationRecord :=
  ⟨1, 2, [], AnalysisStatus.done, 1, some (runPipeline cfgW [] 0), 1, 0⟩

/-- Keyword-extraction input: two utterances with tokens `hi` and
`hi yo`. -/
def normHiYo : List (List JSString) := [[[104, 105]], [[104, 105], [121, 111]]]

/-- A conversation item stamped `2026-01-02`. -/
def itemJan2 : ConversationItem :=
  ConversationItem.mk 1 [50, 48, 50, 54, 45, 48, 49, 45, 48, 50] [] [] [] [] false

/-- A conversation item stamped `2026-01-01`. -/
def itemJan1 : ConversationItem :=
  ConversationItem.mk 2 [50, 48, 50, 54, 45, 48, 49, 45, 48, 49] [] [] [] [] false

/-- The two-item timeline used by the grouping witness. -/
def itemsW : List ConversationItem := [itemJan2, itemJan1]

/-- The code units of `A@B ` (an email that trims to non-empty). -/
def emailW : JSString := [65, 64, 66, 32]

end Witness

/-! Theorems. -/

open Worker ApiService Witness

/-- Claim C1: for every ConversationRecord at a fixed analysisVersion,
running the four-stage pipeline twice on the same input yields identical
keywords, mood scores and flags.  The pipeline is a pure function of the
configuration and the utterances; the wall-clock argument `now` (the only
run-varying input) influences nothing but `completedAt`, so two runs at
times `t1` and `t2` agree on every analytic field. -/
theorem pipeline_idempotent (cfg : AnalysisConfig) (utts : List Utterance) (t1 t2 : Nat) :
    (runPipeline cfg utts t1).keywords = (runPipeline cfg utts t2).keywords ∧
    (runPipeline cfg utts t1).moodOverall = (runPipeline cfg utts t2).moodOverall ∧
    (runPipeline cfg utts t1).moodByUtterance = (runPipeline cfg utts t2).moodByUtterance ∧
    (runPipeline cfg utts t1).flags = (runPipeline cfg utts t2).flags :=
  ⟨rfl, rfl, rfl, rfl⟩

/-- Claim C3: the mood classifier output is parallel to the utterance
sequence - `len(moodByUtterance) = len(utterances)` for every analyzed
conversation - and an utterance whose normalised token stream is empty
deterministically receives label neutral with score 0 rather than being
skipped. -/
theorem mood_one_to_one (cfg : AnalysisConfig) (utts : List Utterance) (t : Nat) :
    (runPipeline cfg utts t).moodByUtterance.length = utts.length ∧
    (∀ (i : Nat) (u : Utterance), utts[i]? = some u → tokenize u.text = [] →
        (runPipeline cfg utts t).moodByUtterance[i]? = some (MoodLabel.neutral, 0)) := by
  have hmap : (runPipeline cfg utts t).moodByUtterance
      = utts.map (fun v => classifyUtterance cfg.scorer (tokenize v.text)) := by
    show (utts.map (fun v => tokenize v.text)).map (classifyUtterance cfg.scorer) = _
    rw [List.map_map]
    rfl
  constructor
  · rw [hmap, List.length_map]
  · intro i u hu ht
    rw [hmap, List.getElem?_map, hu]
    simp [classifyUtterance, ht]

/-- Witness for C3 at a conversation whose only utterance is white space
and punctuation. -/
theorem mood_one_to_one_witness :
    uttsBlank[0]? = some (Utterance.mk Speaker.child [32, 33] 5) ∧
    tokenize (Utterance.mk Speaker.child [32, 33] 5).text = [] ∧
    (runPipeline cfgW uttsBlank 0).moodByUtterance[0]? = some (MoodLabel.neutral, 0) :=
  ⟨by decide, by decide,
   (mood_one_to_one cfgW uttsBlank 0).2 0 (Utterance.mk Speaker.child [32, 33] 5)
     (by decide) (by decide)⟩

/-- Claim C5: `commitAnalysis` called with a version that no longer
matches the stored analysisVersion fails without applying any partial
update - the record (hence its pending status and its retry counter) is
returned unchanged - and a stale commit carrying an old version is always
rejected. -/
theorem commit_race_rejected (r : ConversationRecord) (res : AnalysisResult)
    (st : AnalysisStatus) :
    (∀ v, v ≠ r.analysisVersion → commitAnalysis r v res st = (r, false)) ∧
    (∀ v, v < r.analysisVersion → commitAnalysis r v res st = (r, false)) ∧
    (∀ v, v ≠ r.analysisVersion → (commitAnalysis r v res st).1.retryCount = r.retryCount) ∧
    (∀ v, v ≠ r.analysisVersion → r.analysisStatus = AnalysisStatus.pending →
        (commitAnalysis r v res st).1.analysisStatus = AnalysisStatus.pending) := by
  have key : ∀ v, v ≠ r.analysisVersion → commitAnalysis r v res st = (r, false) := by
    intro v hv
    simp [commitAnalysis, hv]
  exact ⟨key, fun v hv => key v (Nat.ne_of_lt hv),
         fun v hv => by rw [key v hv],
         fun v hv hp => by rw [key v hv]; exact hp⟩

/-- Witness for C5: a stale commit at version 1 against a record whose
stored analysisVersion is 2 is rejected and leaves the record intact. -/
theorem commit_race_rejected_witness :
    commitAnalysis recV2 1 resW AnalysisStatus.done = (recV2, false) :=
  (commit_race_rejected recV2 resW AnalysisStatus.done).1 1 (by decide)

/-- Claim C7: when several workers race to claim one pending
conversation, exactly one compare-and-set succeeds.  The store serialises
the atomic CAS calls, so any race is a sequence of `claimCAS` attempts:
starting from pending, any positive number of attempts yields exactly one
success, and from any start the success count never exceeds one. -/
theorem at_most_one_claim :
    (∀ n, 1 ≤ n →
        runClaimAttempts AnalysisStatus.pending n = (AnalysisStatus.in_progress, 1)) ∧
    (∀ s n, (runClaimAttempts s n).2 ≤ 1) := by
  have hnp : ∀ n s, s ≠ AnalysisStatus.pending → runClaimAttempts s n = (s, 0) := by
    intro n
    induction n with
    | zero => intro s _; rfl
    | succ n ih => intro s h; simp [runClaimAttempts, claimCAS, h, ih s h]
  constructor
  · intro n hn
    match n, hn with
    | n + 1, _ =>
      simp [runClaimAttempts, claimCAS,
            hnp n AnalysisStatus.in_progress (by simp)]
  · intro s n
    cases n with
    | zero => simp [runClaimAttempts]
    | succ n =>
      by_cases h : s = AnalysisStatus.pending
      · subst h
        simp [runClaimAttempts, claimCAS, hnp n AnalysisStatus.in_progress (by simp)]
      · simp [hnp (n + 1) s h]

/-- Witness for C7: three racing attempts on a pending conversation
produce exactly one successful claim. -/
theorem at_most_one_claim_witness :
    runClaimAttempts AnalysisStatus.pending 3 = (AnalysisStatus.in_progress, 1) :=
  at_most_one_claim.1 3 (by decide)

/-- Claim C8: `ApiService.getMoodTrends` never reports failure - every
input produces a response with `success = true`, and a throwing store
query produces `ok([])` (success with empty data) - whereas the shared
`ApiService.fail` helper, which every other method returns from its catch
block, produces `success = false`. -/
theorem getMoodTrends_never_fails (fmtDay : JSString → JSString) (now : JSString)
    (q : Except JSString (List MoodEventDoc)) :
    (getMoodTrends fmtDay now q).success = true ∧
    (∀ e, getMoodTrends fmtDay now (Except.error e) = ok now []) ∧
    (∀ e, (@fail (List MoodDataPoint) now e).success = false) := by
  refine ⟨?_, fun e => rfl, fun e => rfl⟩
  cases q <;> rfl

/-- Claim C10: the `userId` derived by `login` is a deterministic
function of the (lowercased, trimmed) email whenever that normalised
email is non-empty - identical across any two invocations - because
`stableIdFromString` is a pure non-negative hash; only an empty email
falls back to the time-dependent `Date.now()` id. -/
theorem login_userId_stable :
    (∀ email t1 t2, normalizeEmail email ≠ [] →
        loginUserId email t1 = loginUserId email t2) ∧
    (∀ s, 0 ≤ stableIdFromString s) ∧
    (∀ email, normalizeEmail email = [] → loginUserId email 0 ≠ loginUserId email 1) := by
  refine ⟨?_, ?_, ?_⟩
  · intro email t1 t2 h
    simp [loginUserId, h]
  · intro s
    unfold stableIdFromString mathAbs
    split <;> omega
  · intro email h
    simp [loginUserId, h, natToJS]
    decide

/-- Witness for C10: the email `A@B ` normalises to the non-empty `a@b`,
and two logins at different times derive the same userId. -/
theorem login_userId_stable_witness :
    normalizeEmail emailW ≠ [] ∧ loginUserId emailW 3 = loginUserId emailW 7 :=
  ⟨by decide, login_userId_stable.1 emailW 3 7 (by decide)⟩

/-- Claim C2: every flag produced by the safety rule engine references a
valid utterance index: `0 ≤ f.utteranceIndex < len(utterances)` at the
analyzed version.  Both flag sources draw their indices from the range of
the normalised (hence length-preserving) utterance sequence. -/
theorem flags_index_invariant (cfg : AnalysisConfig) (utts : List Utterance) (t : Nat)
    (f : Worker.Flag) (hf : f ∈ (runPipeline cfg utts t).flags) :
    f.utteranceIndex < utts.length := by
  have hf' : f ∈ safetyFlags cfg.kwRules cfg.thRules (Worker.normalize utts)
      (moodByUtterance cfg.scorer (Worker.normalize utts)) := hf
  have hn : (Worker.normalize utts).length = utts.length := List.length_map _ _
  have hm : (moodByUtterance cfg.scorer (Worker.normalize utts)).length = utts.length := by
    rw [moodByUtterance, List.length_map, hn]
  rcases List.mem_append.mp hf' with h | h
  · rcases List.mem_flatten.mp h with ⟨l, hl, hfl⟩
    rcases List.mem_map.mp hl with ⟨r, _, rfl⟩
    rcases List.mem_filterMap.mp hfl with ⟨i, hi, hsome⟩
    rw [List.mem_range] at hi
    by_cases hc : r.term ∈ (Worker.normalize utts).getD i []
    · rw [if_pos hc] at hsome
      cases hsome
      exact hn ▸ hi
    · rw [if_neg hc] at hsome
      cases hsome
  · rcases List.mem_flatten.mp h with ⟨l, hl, hfl⟩
    rcases List.mem_map.mp hl with ⟨r, _, rfl⟩
    rcases List.mem_filterMap.mp hfl with ⟨i, hi, hsome⟩
    rw [List.mem_range] at hi
    by_cases hc : windowHolds r (moodByUtterance cfg.scorer (Worker.normalize utts)) i = true
    · rw [if_pos hc] at hsome
      cases hsome
      exact hm ▸ hi
    · rw [if_neg hc] at hsome
      cases hsome

/-- Witness for C2: the keyword rule of `cfgW` fires on the utterance
`Sad!`, and the produced flag indexes utterance 0 of 1. -/
theorem flags_index_invariant_witness :
    flagSad ∈ (runPipeline cfgW uttsSad 0).flags ∧ flagSad.utteranceIndex < uttsSad.length :=
  ⟨by decide, flags_index_invariant cfgW uttsSad 0 flagSad (by decide)⟩

/-- Membership in the first-occurrence deduplication is membership in the
token stream. -/
theorem mem_firstOccs {tm : JSString} : ∀ {l : List JSString}, tm ∈ firstOccs l ↔ tm ∈ l := by
  intro l
  induction l with
  | nil => simp [firstOccs]
  | cons a l ih =>
    by_cases h : tm = a
    · subst h
      simp [firstOccs]
    · simp [firstOccs, List.mem_filter, ih, h]

/-- The first-occurrence deduplication has no duplicates. -/
theorem nodup_firstOccs : ∀ l : List JSString, (firstOccs l).Nodup := by
  intro l
  induction l with
  | nil => simp [firstOccs]
  | cons a l ih =>
    show (a :: (firstOccs l).filter (fun x => x ≠ a)).Nodup
    refine List.nodup_cons.mpr ⟨?_, List.Nodup.filter _ ih⟩
    simp [List.mem_filter]

/-- The terms of the keyword entries are exactly the deduplicated
tokens. -/
theorem entries_map_term (toks : List JSString) :
    ((firstOccs toks).map (fun t => KwEntry.mk t (toks.count t) (toks.indexOf t))).map
      KwEntry.term = firstOccs toks := by
  rw [List.map_map]
  have h : (KwEntry.term ∘ fun t => KwEntry.mk t (toks.count t) (toks.indexOf t))
      = fun t : JSString => t := rfl
  rw [h]
  simp

/-- Claim C6: the keyword extractor returns an ordered sequence of
(term, score) entries capped at the configured maximum, deduplicated by
normalised term, sorted by descending score with ties broken by
first-occurrence order; a conversation with no more distinct terms than
the cap keeps all of them, and an empty conversation yields an empty
sequence rather than an error. -/
theorem extractKeywords_spec (cap : Nat) (norm : List (List JSString)) :
    (extractKeywords cap norm).length ≤ cap ∧
    ((extractKeywords cap norm).map KwEntry.term).Nodup ∧
    (extractKeywords cap norm).Pairwise kwLe ∧
    ((firstOccs norm.flatten).length ≤ cap →
        ∀ tm, tm ∈ norm.flatten → ∃ e, e ∈ extractKeywords cap norm ∧ e.term = tm) ∧
    (norm = [] → extractKeywords cap norm = []) := by
  have hperm := List.perm_insertionSort kwLe
    ((firstOccs norm.flatten).map
      (fun t => KwEntry.mk t (norm.flatten.count t) (norm.flatten.indexOf t)))
  refine ⟨?_, ?_, ?_, ?_, ?_⟩
  · show (List.take cap _).length ≤ cap
    simp [List.length_take]
  · have h1 : ((List.insertionSort kwLe
        ((firstOccs norm.flatten).map
          (fun t => KwEntry.mk t (norm.flatten.count t) (norm.flatten.indexOf t)))).map
        KwEntry.term).Nodup := by
      refine (hperm.map KwEntry.term).nodup_iff.mpr ?_
      rw [entries_map_term]
      exact nodup_firstOccs _
    exact h1.sublist ((List.take_sublist _ _).map _)
  · exact (List.sorted_insertionSort kwLe _).sublist (List.take_sublist _ _)
  · intro hcap tm htm
    have htm' : tm ∈ firstOccs norm.flatten := mem_firstOccs.mpr htm
    refine ⟨KwEntry.mk tm (norm.flatten.count tm) (norm.flatten.indexOf tm), ?_, rfl⟩
    have hmem := hperm.mem_iff.mpr
      (List.mem_map_of_mem
        (fun t => KwEntry.mk t (norm.flatten.count t) (norm.flatten.indexOf t)) htm')
    have hlen : (List.insertionSort kwLe
        ((firstOccs norm.flatten).map
          (fun t => KwEntry.mk t (norm.flatten.count t) (norm.flatten.indexOf t)))).length
        ≤ cap := by
      rw [hperm.length_eq, List.length_map]
      exact hcap
    show _ ∈ List.take cap _
    rw [List.take_of_length_le hlen]
    exact hmem
  · intro h
    subst h
    show List.take cap ([] : List KwEntry) = []
    simp

/-- Witness for C6 on the token streams `hi` and `hi yo`: two distinct
terms, below the cap of 10, and the term `hi` survives into the
output. -/
theorem extractKeywords_spec_witness :
    (firstOccs normHiYo.flatten).length ≤ 10 ∧
    ∃ e, e ∈ extractKeywords 10 normHiYo ∧ e.term = [104, 105] :=
  ⟨by decide, (extractKeywords_spec 10 normHiYo).2.2.2.1 (by decide) [104, 105] (by decide)⟩

/-- Inversion of a step that lands in status done: it can only be the
successful atomic commit of a completed pipeline run, performed from
in_progress at the current analysisVersion. -/
theorem step_done_inversion (cfg : AnalysisConfig) {s s' : ConversationRecord}
    (hs : Step cfg s s') (hd : s'.analysisStatus = AnalysisStatus.done) :
    s.analysisStatus = AnalysisStatus.in_progress ∧
    s'.analysisVersion = s.analysisVersion ∧
    (∃ t, s'.analysis = some (runPipeline cfg s.utterances t)) ∧
    s'.lastAnalyzedVersion = s.analysisVersion := by
  cases hs with
  | claim h => exact AnalysisStatus.noConfusion hd
  | commit r' t h hc =>
    unfold commitAnalysis at hc
    rw [if_pos rfl] at hc
    injection hc with h2 h3
    subst h2
    exact ⟨h, rfl, ⟨t, rfl⟩, rfl⟩
  | fail_stage h => exact AnalysisStatus.noConfusion hd
  | retry h => exact AnalysisStatus.noConfusion hd
  | reingest u => exact AnalysisStatus.noConfusion hd

/-- Claim C4: every reachable conversation with analysisStatus done has a
non-null analysis whose lastAnalyzedVersion equals analysisVersion, and
the only transition into done starts from in_progress and consists of the
successful atomic commit of analysis, status and lastAnalyzedVersion of a
completed four-stage pipeline run. -/
theorem done_status_invariant (cfg : AnalysisConfig) (i u : Nat) (utts : List Utterance)
    (s : ConversationRecord) (hr : Reachable cfg (mkRecord i u utts) s) :
    (s.analysisStatus = AnalysisStatus.done →
        (∃ a, s.analysis = some a) ∧ s.lastAnalyzedVersion = s.analysisVersion) ∧
    (∀ s', Step cfg s s' → s'.analysisStatus = AnalysisStatus.done →
        s.analysisStatus = AnalysisStatus.in_progress ∧
        (∃ t, s'.analysis = some (runPipeline cfg s.utterances t)) ∧
        s'.lastAnalyzedVersion = s.analysisVersion) := by
  constructor
  · induction hr with
    | refl => intro h; exact AnalysisStatus.noConfusion h
    | tail hr hs ih =>
      intro hdone
      obtain ⟨hin, hver, ⟨t, ht⟩, hlast⟩ := step_done_inversion cfg hs hdone
      exact ⟨⟨_, ht⟩, by rw [hlast, hver]⟩
  · intro s' hs hd
    obtain ⟨h1, h2, h3, h4⟩ := step_done_inversion cfg hs hd
    exact ⟨h1, h3, h4⟩

/-- Witness for C4: the empty conversation is claimed and committed, and
the resulting done record satisfies the invariant. -/
theorem done_status_invariant_witness :
    (doneW.analysisStatus = AnalysisStatus.done →
        (∃ a, doneW.analysis = some a) ∧ doneW.lastAnalyzedVersion = doneW.analysisVersion) ∧
    (∀ s', Step cfgW doneW s' → s'.analysisStatus = AnalysisStatus.done →
        doneW.analysisStatus = AnalysisStatus.in_progress ∧
        (∃ t, s'.analysis = some (runPipeline cfgW doneW.utterances t)) ∧
        s'.lastAnalyzedVersion = doneW.analysisVersion) :=
  done_status_invariant cfgW 1 2 [] doneW
    (Reachable.tail (Reachable.tail (Reachable.refl _) (Step.claim _ rfl))
      (Step.commit inProgW doneW 0 rfl rfl))

/-- A permutation of lists of lists induces a permutation of their
concatenations. -/
theorem flatten_perm_of_perm {α : Type} {l₁ l₂ : List (List α)} (h : List.Perm l₁ l₂) :
    List.Perm l₁.flatten l₂.flatten := by
  induction h with
  | nil => exact List.Perm.refl _
  | cons x _ ih => simpa using ih.append_left x
  | swap x y l =>
    simp only [List.flatten_cons]
    rw [← List.append_assoc, ← List.append_assoc]
    exact List.perm_append_comm.append_right _
  | trans _ _ ih1 ih2 => exact ih1.trans ih2

/-- Keys added by one map-insertion step: the old keys plus possibly the
key of the inserted item. -/
theorem insertByDay_fst_mem (m : List (JSString × List ConversationItem))
    (it : ConversationItem) (x : JSString)
    (hx : x ∈ (insertByDay m it).map Prod.fst) :
    x ∈ m.map Prod.fst ∨ x = dayKey it := by
  induction m with
  | nil =>
    right
    simpa [insertByDay] using hx
  | cons e m ih =>
    obtain ⟨k, arr⟩ := e
    by_cases hk : k = dayKey it
    · simp only [insertByDay] at hx
      rw [if_pos hk] at hx
      simp only [List.map_cons] at hx
      left
      simpa using hx
    · simp only [insertByDay] at hx
      rw [if_neg hk] at hx
      simp only [List.map_cons, List.mem_cons] at hx
      rcases hx with h | h
      · left
        simp [h]
      · rcases ih h with h2 | h2
        · left
          simp [h2]
        · right
          exact h2

/-- One map-insertion step preserves well-formedness of the grouping
map. -/
theorem insertByDay_inv (m : List (JSString × List ConversationItem))
    (it : ConversationItem) (h : mapInv m) : mapInv (insertByDay m it) := by
  induction m with
  | nil =>
    refine ⟨by simp [insertByDay], ?_⟩
    intro e he x hx
    simp only [insertByDay, List.mem_singleton] at he
    subst he
    simp only [List.mem_singleton] at hx
    subst hx
    rfl
  | cons e m ih =>
    obtain ⟨k, arr⟩ := e
    obtain ⟨hnd, hkey⟩ := h
    rw [List.map_cons] at hnd
    have hnd1 : k ∉ m.map Prod.fst := (List.nodup_cons.mp hnd).1
    have hnd2 : (m.map Prod.fst).Nodup := (List.nodup_cons.mp hnd).2
    have hinvm : mapInv m := ⟨hnd2, fun e he => hkey e (List.mem_cons_of_mem _ he)⟩
    by_cases hk : k = dayKey it
    · show mapInv (if k = dayKey it then (k, arr ++ [it]) :: m
        else (k, arr) :: insertByDay m it)
      rw [if_pos hk]
      refine ⟨by simpa using hnd, ?_⟩
      intro e he x hx
      rcases List.mem_cons.mp he with rfl | he2
      · rcases List.mem_append.mp hx with hx2 | hx2
        · exact hkey (k, arr) (List.mem_cons_self _ _) x hx2
        · simp only [List.mem_singleton] at hx2
          subst hx2
          exact hk.symm
      · exact hkey e (List.mem_cons_of_mem _ he2) x hx
    · show mapInv (if k = dayKey it then (k, arr ++ [it]) :: m
        else (k, arr) :: insertByDay m it)
      rw [if_neg hk]
      obtain ⟨ih1, ih2⟩ := ih hinvm
      constructor
      · rw [List.map_cons]
        refine List.nodup_cons.mpr ⟨?_, ih1⟩
        intro hmem
        rcases insertByDay_fst_mem m it k hmem with h2 | h2
        · exact hnd1 h2
        · exact hk h2
      · intro e he x hx
        rcases List.mem_cons.mp he with rfl | he2
        · exact hkey (k, arr) (List.mem_cons_self _ _) x hx
        · exact ih2 e he2 x hx

/-- One map-insertion step adds exactly the inserted item to the bucket
contents. -/
theorem insertByDay_flatten (m : List (JSString × List ConversationItem))
    (it : ConversationItem) :
    List.Perm ((insertByDay m it).map Prod.snd).flatten
      ((m.map Prod.snd).flatten ++ [it]) := by
  induction m with
  | nil =>
    simp [insertByDay]
  | cons e m ih =>
    obtain ⟨k, arr⟩ := e
    by_cases hk : k = dayKey it
    · simp only [insertByDay]
      rw [if_pos hk]
      simp only [List.map_cons, List.flatten_cons]
      rw [List.append_assoc, List.append_assoc]
      exact List.perm_append_comm.append_left arr
    · simp only [insertByDay]
      rw [if_neg hk]
      simp only [List.map_cons, List.flatten_cons]
      rw [List.append_assoc]
      exact ih.append_left arr

/-- The grouping loop keeps the map well-formed. -/
theorem foldl_insertByDay_inv (items : List ConversationItem) :
    ∀ m, mapInv m → mapInv (items.foldl insertByDay m) := by
  induction items with
  | nil => intro m h; exact h
  | cons it items ih => intro m h; exact ih _ (insertByDay_inv m it h)

/-- The grouping loop distributes exactly the processed items over the
buckets. -/
theorem foldl_insertByDay_flatten (items : List ConversationItem) :
    ∀ m, List.Perm ((items.foldl insertByDay m).map Prod.snd).flatten
      ((m.map Prod.snd).flatten ++ items) := by
  induction items with
  | nil =>
    intro m
    rw [List.append_nil]
    exact List.Perm.refl _
  | cons it items ih =>
    intro m
    have h1 := ih (insertByDay m it)
    have h2 := (insertByDay_flatten m it).append_right items
    refine h1.trans (h2.trans ?_)
    rw [List.append_assoc]
    exact List.Perm.refl _

/-- The finished grouping map is well-formed. -/
theorem buildDayMap_inv (items : List ConversationItem) : mapInv (buildDayMap items) := by
  refine foldl_insertByDay_inv items [] ⟨by simp, ?_⟩
  intro e he
  exact absurd he (List.not_mem_nil e)

/-- The buckets of the finished grouping map hold exactly the input
items. -/
theorem buildDayMap_flatten (items : List ConversationItem) :
    List.Perm ((buildDayMap items).map Prod.snd).flatten items := by
  simpa using foldl_insertByDay_flatten items []

/-- The output days are exactly the buckets of the grouping map, with
their items sorted by descending timestamp. -/
theorem mem_groupItemsByDay {items : List ConversationItem} {d : ConversationDay} :
    d ∈ groupItemsByDay items ↔
    ∃ e, e ∈ buildDayMap items ∧ d = ⟨e.1, List.insertionSort itemDesc e.2⟩ := by
  unfold groupItemsByDay sortedBuckets
  constructor
  · intro hd
    rcases List.mem_map.mp hd with ⟨f, hf, rfl⟩
    have hf2 := (List.perm_insertionSort entryDesc _).mem_iff.mp hf
    rcases List.mem_map.mp hf2 with ⟨e, he, rfl⟩
    exact ⟨e, he, rfl⟩
  · rintro ⟨e, he, rfl⟩
    refine List.mem_map.mpr ⟨(e.1, List.insertionSort itemDesc e.2), ?_, rfl⟩
    refine (List.perm_insertionSort entryDesc _).mem_iff.mpr ?_
    exact List.mem_map.mpr ⟨e, he, rfl⟩

/-- Claim C9: `groupItemsByDay` partitions its input - every input item
lands in some output day, any member of an output day is an input item of
the day whose date equals the first 10 code units of its timestamp, the
day containing a given item is unique - days are ordered newest date
first, and the items inside each day are ordered newest timestamp
first. -/
theorem groupItemsByDay_partitions (items : List ConversationItem)
    (it : ConversationItem) (hit : it ∈ items) :
    (∃ d, d ∈ groupItemsByDay items ∧ it ∈ d.items) ∧
    (∀ d, d ∈ groupItemsByDay items → ∀ x, x ∈ d.items →
        d.date = dayKey x ∧ x ∈ items) ∧
    (∀ d1 d2, d1 ∈ groupItemsByDay items → d2 ∈ groupItemsByDay items →
        it ∈ d1.items → it ∈ d2.items → d1 = d2) ∧
    (groupItemsByDay items).Pairwise (fun d1 d2 => d2.date ≤ d1.date) ∧
    (∀ d, d ∈ groupItemsByDay items →
        d.items.Pairwise (fun a b => b.timestamp ≤ a.timestamp)) := by
  obtain ⟨hnd, hkey⟩ := buildDayMap_inv items
  have hflat := buildDayMap_flatten items
  refine ⟨?_, ?_, ?_, ?_, ?_⟩
  · have hit2 : it ∈ ((buildDayMap items).map Prod.snd).flatten := hflat.mem_iff.mpr hit
    rcases List.mem_flatten.mp hit2 with ⟨l, hl, hil⟩
    rcases List.mem_map.mp hl with ⟨e, he, rfl⟩
    refine ⟨⟨e.1, List.insertionSort itemDesc e.2⟩, mem_groupItemsByDay.mpr ⟨e, he, rfl⟩, ?_⟩
    exact (List.perm_insertionSort itemDesc e.2).mem_iff.mpr hil
  · intro d hd x hx
    rcases mem_groupItemsByDay.mp hd with ⟨e, he, rfl⟩
    have hx2 : x ∈ e.2 := (List.perm_insertionSort itemDesc e.2).mem_iff.mp hx
    refine ⟨(hkey e he x hx2).symm, ?_⟩
    have hxf : x ∈ ((buildDayMap items).map Prod.snd).flatten :=
      List.mem_flatten.mpr ⟨e.2, List.mem_map_of_mem Prod.snd he, hx2⟩
    exact hflat.mem_iff.mp hxf
  · intro d1 d2 hd1 hd2 h1 h2
    rcases mem_groupItemsByDay.mp hd1 with ⟨e1, he1, rfl⟩
    rcases mem_groupItemsByDay.mp hd2 with ⟨e2, he2, rfl⟩
    have k1 : dayKey it = e1.1 :=
      hkey e1 he1 it ((List.perm_insertionSort itemDesc e1.2).mem_iff.mp h1)
    have k2 : dayKey it = e2.1 :=
      hkey e2 he2 it ((List.perm_insertionSort itemDesc e2.2).mem_iff.mp h2)
    have he : e1 = e2 := List.inj_on_of_nodup_map hnd he1 he2 (k1.symm.trans k2)
    rw [he]
  · unfold groupItemsByDay
    refine List.pairwise_map.mpr ?_
    exact List.sorted_insertionSort entryDesc _
  · intro d hd
    rcases mem_groupItemsByDay.mp hd with ⟨e, he, rfl⟩
    exact List.sorted_insertionSort itemDesc e.2

/-- Witness for C9: two items on consecutive days; the partition
properties hold for the item stamped `2026-01-02`. -/
theorem groupItemsByDay_partitions_witness :
    (∃ d, d ∈ groupItemsByDay itemsW ∧ itemJan2 ∈ d.items) ∧
    (∀ d, d ∈ groupItemsByDay itemsW → ∀ x, x ∈ d.items →
        d.date = dayKey x ∧ x ∈ itemsW) ∧
    (∀ d1 d2, d1 ∈ groupItemsByDay itemsW → d2 ∈ groupItemsByDay itemsW →
        itemJan2 ∈ d1.items → itemJan2 ∈ d2.items → d1 = d2) ∧
    (groupItemsByDay itemsW).Pairwise (fun d1 d2 => d2.date ≤ d1.date) ∧
    (∀ d, d ∈ groupItemsByDay itemsW →
        d.items.Pairwise (fun a b => b.timestamp ≤ a.timestamp)) :=
  groupItemsByDay_partitions itemsW itemJan2 (by decide)

end TedTalks
